import Mathlib

/-!
Verification of the Fenwick tree library `fenwick-tree-rs`.

The core data structure and its traversal loops are embedded from
`src/tree.rs`: the struct `FenwickTree<I>` backed by a fixed-length buffer,
the constructor `of_size`, the accessor `size`, the range-sum query `sum`
(two descent loops driven by `prev(i) = i & (i - 1)`) and the point update
`add` (one ascent loop driven by `next(i) = i | (i + 1)`).  Machine indices
(`usize`) are modelled as `Nat`; in every loop of the source the index is
positive when decremented, so no wrap-around semantics are lost.  The
element type `I` only needs a zero, addition and subtraction, exactly as the
`Default + Copy + AddAssign + SubAssign` bound in the source.

The imperative loops are translated by explicit state passing: each `while`
loop becomes a recursive function whose arguments are the mutated locals
(the cursor and the accumulator `s`).  Buffer reads `tree[i]` are modelled
with `List.getD`; a separate variant `sumOpt` models the panicking bounds
check of Rust indexing with `Option`, and is proved to succeed for
in-bounds cursors.

The repository's final public API is fallible (`with_len`, `add` and `sum`
returning `Result`, range-bound normalization); its tests (`src/tests.rs`)
and crate docs (`src/lib.rs`) are in `src/`, but the revision of `tree.rs`
implementing it is not.  Those wrappers are therefore modelled from the
spec, marked `Modelled from the spec:` below, on top of the embedded core.
-/

set_option maxRecDepth 4000

/-- `prev` from src/tree.rs: `i & (i - 1)`, clears the lowest set bit
(on `Nat`, `0 - 1 = 0`, and the source only calls it at `i > 0`). -/
def prev (i : Nat) : Nat := i &&& (i - 1)

/-- `next` from src/tree.rs: `i | (i + 1)`, sets the lowest unset bit. -/
def next (i : Nat) : Nat := i ||| (i + 1)

/-- The tree struct from src/tree.rs: a fixed-length buffer of cells. -/
structure FenwickTree (I : Type) where
  tree : List I
deriving DecidableEq

/-- `FenwickTree::of_size`: a buffer of `size` cells, each `I::default()`. -/
def FenwickTree.of_size (I : Type) [Zero I] (size : Nat) : FenwickTree I :=
  ⟨List.replicate size 0⟩

/-- `FenwickTree::size`: length of the backing buffer. -/
def FenwickTree.size {I : Type} (T : FenwickTree I) : Nat :=
  T.tree.length

/-- Second loop of `FenwickTree::sum`: `while i > j { s -= tree[i-1]; i = prev(i) }`.
The state is `(i, s)`; `j` is no longer mutated there. -/
def sumLoop2 {I : Type} [Zero I] [Sub I] (t : List I) (j i : Nat) (s : I) : I :=
  if h : j < i then sumLoop2 t j (prev i) (s - t.getD (i - 1) 0) else s
termination_by i
decreasing_by simp only [prev]; have h2 := @Nat.and_le_right i (i - 1); omega

/-- First loop of `FenwickTree::sum`: `while j > i { s += tree[j-1]; j = prev(j) }`,
followed by the second loop on exit.  The state is `(j, s)`; `i` is fixed. -/
def sumLoop1 {I : Type} [Zero I] [Add I] [Sub I] (t : List I) (i j : Nat) (s : I) : I :=
  if h : i < j then sumLoop1 t i (prev j) (s + t.getD (j - 1) 0)
  else sumLoop2 t j i s
termination_by j
decreasing_by simp only [prev]; have h2 := @Nat.and_le_right j (j - 1); omega

/-- `FenwickTree::sum(range)` from src/tree.rs, with `range.start`/`range.end`
passed as the two `Nat` arguments: `s = 0; i = start; j = end;` then the two loops. -/
def FenwickTree.sum {I : Type} [Zero I] [Add I] [Sub I]
    (T : FenwickTree I) (start stop : Nat) : I :=
  sumLoop1 T.tree start stop 0

/-- Loop of `FenwickTree::add`: `while i < len { tree[i] += delta; i = next(i) }`. -/
def addLoop {I : Type} [Add I] (t : List I) (delta : I) (i : Nat) : List I :=
  if h : i < t.length then addLoop (t.set i (t.get ⟨i, h⟩ + delta)) delta (next i) else t
termination_by t.length - i
decreasing_by
  simp only [List.length_set]
  have h2 : i + 1 ≤ next i := by
    apply Nat.le_of_testBit
    intro k hk
    rw [next, Nat.testBit_or, hk, Bool.or_true]
  omega

/-- `FenwickTree::add(i, delta)` from src/tree.rs (the infallible core). -/
def FenwickTree.add {I : Type} [Add I] (T : FenwickTree I) (i : Nat) (delta : I) :
    FenwickTree I :=
  ⟨addLoop T.tree delta i⟩

/-- Second sum loop with the Rust bounds check made explicit: indexing
`tree[i - 1]` out of bounds panics, modelled as `none`. -/
def sumLoop2Opt {I : Type} [Zero I] [Sub I] (t : List I) (j i : Nat) (s : I) : Option I :=
  if h : j < i then
    match t[i - 1]? with
    | some c => sumLoop2Opt t j (prev i) (s - c)
    | none => none
  else some s
termination_by i
decreasing_by simp only [prev]; have h2 := @Nat.and_le_right i (i - 1); omega

/-- First sum loop with the Rust bounds check made explicit. -/
def sumLoop1Opt {I : Type} [Zero I] [Add I] [Sub I] (t : List I) (i j : Nat) (s : I) :
    Option I :=
  if h : i < j then
    match t[j - 1]? with
    | some c => sumLoop1Opt t i (prev j) (s + c)
    | none => none
  else sumLoop2Opt t j i s
termination_by j
decreasing_by simp only [prev]; have h2 := @Nat.and_le_right j (j - 1); omega

/-- `FenwickTree::sum` with panicking buffer accesses modelled as `none`. -/
def FenwickTree.sumOpt {I : Type} [Zero I] [Add I] [Sub I]
    (T : FenwickTree I) (start stop : Nat) : Option I :=
  sumLoop1Opt T.tree start stop 0

/-- `std::ops::Bound<usize>`, one side of the range-bound pair accepted by
the fallible `sum` (see src/tests.rs and src/lib.rs). -/
inductive Bound where
  | included (n : Nat)
  | excluded (n : Nat)
  | unbounded
deriving DecidableEq

/-- `AddError` from src/errors.rs: `IndexOutOfRange { index, size }`. -/
inductive AddError where
  | indexOutOfRange (index : Nat) (size : Nat)
deriving DecidableEq

/-- Modelled from the spec: the `SumError` of the final fallible `sum` API,
`OutOfRange { bounds, len }`, carrying the original (pre-normalization)
bound pair and the tree's length.  (src/errors.rs in `src/` is an earlier
revision whose `RangeOutsideTree` variant carries the same payload;
src/tests.rs matches against `SumError::OutOfRange`.) -/
inductive SumError where
  | outOfRange (bounds : Bound × Bound) (len : Nat)
deriving DecidableEq

instance {E A : Type} [DecidableEq E] [DecidableEq A] : DecidableEq (Except E A) := fun x y =>
  match x, y with
  | .ok a, .ok b => if h : a = b then .isTrue (by rw [h]) else .isFalse (by simp [h])
  | .error e, .error f => if h : e = f then .isTrue (by rw [h]) else .isFalse (by simp [h])
  | .ok _, .error _ => .isFalse (by simp)
  | .error _, .ok _ => .isFalse (by simp)

/-- Modelled from the spec: normalization of the start bound to an
inclusive 0-based lower index (unbounded start becomes `0`). -/
def startIndex : Bound → Nat
  | .included s => s
  | .excluded s => s + 1
  | .unbounded => 0

/-- Modelled from the spec: normalization of the end bound to an exclusive
0-based upper index (unbounded end becomes the tree length). -/
def endIndex (len : Nat) : Bound → Nat
  | .included e => e + 1
  | .excluded e => e
  | .unbounded => len

/-- Modelled from the spec: the final fallible `sum(bounds)` wrapper, whose
implementing revision of tree.rs is not under `src/`.  It normalizes the
bound pair, validates `start < len` and `end <= len` (failing with
`OutOfRange` carrying the original bounds and the length before touching
the buffer), returns zero for an empty or decreasing normalized range, and
otherwise runs the embedded core loops. -/
def FenwickTree.sumChecked {I : Type} [Zero I] [Add I] [Sub I]
    (T : FenwickTree I) (bounds : Bound × Bound) : Except SumError I :=
  let start := startIndex bounds.1
  let stop := endIndex T.size bounds.2
  if T.size ≤ start ∨ T.size < stop then .error (.outOfRange bounds T.size)
  else if stop ≤ start then .ok 0
  else .ok (T.sum start stop)

/-- Modelled from the spec: the final fallible `add(index, delta)` wrapper,
whose implementing revision of tree.rs is not under `src/`.  It fails with
`IndexOutOfRange (index, size)` when `index >= size`, leaving the tree
untouched (the returned tree is the state after the call). -/
def FenwickTree.addChecked {I : Type} [Add I] (T : FenwickTree I) (i : Nat) (delta : I) :
    Except AddError Unit × FenwickTree I :=
  if T.size ≤ i then (.error (.indexOutOfRange i T.size), T)
  else (.ok (), T.add i delta)

/-- Specification-side prefix sum of the logical values: `pref v n` is
`v 0 + v 1 + ... + v (n-1)`. -/
def pref {I : Type} [Zero I] [Add I] (v : Nat → I) : Nat → I
  | 0 => 0
  | n + 1 => pref v n + v n

/-- `addAll T v k` performs `add(i, v i)` once for each `i` in `0..k`, in
increasing order — the building loop of `new_filled_tree` in src/tests.rs,
generalized to arbitrary values. -/
def addAll {I : Type} [Add I] (T : FenwickTree I) (v : Nat → I) : Nat → FenwickTree I
  | 0 => T
  | k + 1 => (addAll T v k).add k (v k)

/-- A tree of length `n` filled by `add(i, v i)` for each `i` in `0..n`. -/
def buildT {I : Type} [Zero I] [Add I] (n : Nat) (v : Nat → I) : FenwickTree I :=
  addAll (FenwickTree.of_size I n) v n

/-- Proof device: the full descent sum `tree[x-1] + tree[prev x - 1] + ...`
down to position `0` — the value accumulated by a sum loop that is not
stopped early. -/
def descSum {I : Type} [Zero I] [Add I] (t : List I) (x : Nat) : I :=
  if h : 0 < x then t.getD (x - 1) 0 + descSum t (prev x) else 0
termination_by x
decreasing_by simp only [prev]; have h2 := @Nat.and_le_right x (x - 1); omega

/-- Proof device: does the ascent chain `idx, next idx, next (next idx), ...`
ever hit `d`?  (The cells updated by `add` are exactly the in-range cells
hit by this chain.) -/
def reaches (idx d : Nat) : Bool :=
  if h : idx < d then reaches (next idx) d else idx == d
termination_by d - idx
decreasing_by
  have h2 : idx + 1 ≤ next idx := by
    apply Nat.le_of_testBit
    intro k hk
    rw [next, Nat.testBit_or, hk, Bool.or_true]
  omega

/-- Proof device: the first element of the descent chain of `b` that is
`<= a` — the value of the cursor `j` when the first sum loop exits. -/
def dstop (a b : Nat) : Nat :=
  if h : a < b then dstop a (prev b) else b
termination_by b
decreasing_by simp only [prev]; have h2 := @Nat.and_le_right b (b - 1); omega

/-- Proof device: membership in the descent chain `x, prev x, ..., 0`. -/
def inDesc (m x : Nat) : Bool :=
  if h : m < x then inDesc m (prev x) else m == x
termination_by x
decreasing_by simp only [prev]; have h2 := @Nat.and_le_right x (x - 1); omega

/-- The logical values of the concrete length-3 scenario of src/tests.rs and
src/lib.rs: value `i + 1` at index `i` for `i < 3`. -/
def v3 : Nat → Int
  | 0 => 1
  | 1 => 2
  | 2 => 3
  | _ => 0

theorem next_gt (i : Nat) : i < next i := by
  have h : i + 1 ≤ next i := by
    apply Nat.le_of_testBit
    intro k hk
    rw [next, Nat.testBit_or, hk, Bool.or_true]
  omega

theorem prev_lt {i : Nat} (h : 0 < i) : prev i < i := by
  have h2 : i &&& (i - 1) ≤ i - 1 := Nat.and_le_right
  rw [prev]; omega

theorem prev_le (i : Nat) : prev i ≤ i := by
  have h2 : i &&& (i - 1) ≤ i := Nat.and_le_left
  rw [prev]; omega

theorem prev_two_mul (b : Nat) : prev (2 * b) = 2 * prev b := by
  rcases Nat.eq_zero_or_pos b with hb | hb
  · simp [hb, prev]
  · have h1 : 2 * b = Nat.bit false b := by simp [Nat.bit_val]
    have h2 : 2 * b - 1 = Nat.bit true (b - 1) := by simp [Nat.bit_val]; omega
    rw [prev, prev, h2, h1, Nat.land_bit, Nat.bit_val]
    simp

theorem prev_odd (b : Nat) : prev (2 * b + 1) = 2 * b := by
  have h1 : 2 * b + 1 = Nat.bit true b := by simp [Nat.bit_val]
  have h2 : 2 * b = Nat.bit false b := by simp [Nat.bit_val]
  rw [prev]
  simp only [Nat.add_sub_cancel]
  rw [h1, h2, Nat.land_bit, Nat.bit_val]
  simp

theorem next_even (a : Nat) : next (2 * a) = 2 * a + 1 := by
  have h1 : 2 * a = Nat.bit false a := by simp [Nat.bit_val]
  have h2 : 2 * a + 1 = Nat.bit true a := by simp [Nat.bit_val]
  rw [next, h2, h1, Nat.lor_bit, Nat.bit_val]
  simp [Nat.bit_val]

theorem next_odd (a : Nat) : next (2 * a + 1) = 2 * next a + 1 := by
  have h1 : 2 * a + 1 = Nat.bit true a := by simp [Nat.bit_val]
  have h2 : 2 * a + 1 + 1 = Nat.bit false (a + 1) := by simp [Nat.bit_val]; omega
  rw [next, h2, h1, Nat.lor_bit, next, Nat.bit_val]
  simp

theorem reaches_of_lt {idx d : Nat} (h : idx < d) :
    reaches idx d = reaches (next idx) d := by
  rw [reaches]; simp [h]

theorem reaches_of_not_lt {idx d : Nat} (h : ¬ idx < d) :
    reaches idx d = (idx == d) := by
  rw [reaches]; simp [h]

theorem reaches_self (d : Nat) : reaches d d = true := by
  rw [reaches_of_not_lt (by omega)]; simp

theorem reaches_odd_even_aux (n : Nat) :
    ∀ a b : Nat, b - a ≤ n → reaches (2 * a + 1) (2 * b) = false := by
  induction n with
  | zero =>
    intro a b hb
    rw [reaches_of_not_lt (by omega), beq_eq_false_iff_ne]
    omega
  | succ n ih =>
    intro a b hb
    by_cases h : 2 * a + 1 < 2 * b
    · rw [reaches_of_lt h, next_odd]
      exact ih (next a) b (by have := next_gt a; omega)
    · rw [reaches_of_not_lt h, beq_eq_false_iff_ne]
      omega

theorem reaches_odd_even (a b : Nat) : reaches (2 * a + 1) (2 * b) = false :=
  reaches_odd_even_aux b a b (by omega)

theorem reaches_odd_odd_aux (n : Nat) :
    ∀ a b : Nat, b - a ≤ n → reaches (2 * a + 1) (2 * b + 1) = reaches a b := by
  induction n with
  | zero =>
    intro a b hb
    rw [reaches_of_not_lt (by omega), reaches_of_not_lt (by omega)]
    by_cases he : a = b
    · subst he; simp
    · rw [beq_eq_false_iff_ne.mpr (by omega), beq_eq_false_iff_ne.mpr he]
  | succ n ih =>
    intro a b hb
    by_cases h : a < b
    · rw [reaches_of_lt (by omega), next_odd,
        ih (next a) b (by have := next_gt a; omega), reaches_of_lt h]
    · rw [reaches_of_not_lt (by omega), reaches_of_not_lt h]
      by_cases he : a = b
      · subst he; simp
      · rw [beq_eq_false_iff_ne.mpr (by omega), beq_eq_false_iff_ne.mpr he]

theorem reaches_odd_odd (a b : Nat) :
    reaches (2 * a + 1) (2 * b + 1) = reaches a b :=
  reaches_odd_odd_aux b a b (by omega)

theorem reaches_even_odd (a b : Nat) :
    reaches (2 * a) (2 * b + 1) = reaches a b := by
  by_cases h : a ≤ b
  · rw [reaches_of_lt (by omega), next_even, reaches_odd_odd]
  · rw [reaches_of_not_lt (by omega), reaches_of_not_lt (by omega),
      beq_eq_false_iff_ne.mpr (by omega), beq_eq_false_iff_ne.mpr (by omega)]

theorem reaches_even_even (a b : Nat) : reaches (2 * a) (2 * b) = (a == b) := by
  rcases Nat.lt_trichotomy a b with h | h | h
  · rw [reaches_of_lt (by omega), next_even, reaches_odd_even,
      beq_eq_false_iff_ne.mpr (by omega)]
  · subst h; rw [reaches_self]; simp
  · rw [reaches_of_not_lt (by omega), beq_eq_false_iff_ne.mpr (by omega),
      beq_eq_false_iff_ne.mpr (by omega)]

theorem reaches_iff (d idx : Nat) :
    reaches idx d = true ↔ prev (d + 1) ≤ idx ∧ idx ≤ d := by
  induction d using Nat.strong_induction_on generalizing idx with
  | _ d ih =>
    rcases Nat.even_or_odd d with ⟨b, hb⟩ | ⟨b, hb⟩
    · rw [show b + b = 2 * b by ring] at hb
      subst hb
      rcases Nat.even_or_odd idx with ⟨a, ha⟩ | ⟨a, ha⟩
      · rw [show a + a = 2 * a by ring] at ha
        subst ha
        rw [reaches_even_even, prev_odd]
        simp only [beq_iff_eq]
        omega
      · subst ha
        rw [reaches_odd_even, prev_odd]
        simp only [Bool.false_eq_true, false_iff]
        omega
    · subst hb
      have hp : prev (2 * b + 1 + 1) = 2 * prev (b + 1) := by
        rw [show 2 * b + 1 + 1 = 2 * (b + 1) by ring, prev_two_mul]
      rcases Nat.even_or_odd idx with ⟨a, ha⟩ | ⟨a, ha⟩
      · rw [show a + a = 2 * a by ring] at ha
        subst ha
        rw [reaches_even_odd, ih b (by omega) a, hp, prev]
        have h2 := @Nat.and_le_right (b + 1) b
        omega
      · subst ha
        rw [reaches_odd_odd, ih b (by omega) a, hp, prev]
        have h2 := @Nat.and_le_right (b + 1) b
        omega

theorem dstop_of_lt {a b : Nat} (h : a < b) : dstop a b = dstop a (prev b) := by
  rw [dstop]; simp [h]

theorem dstop_of_not_lt {a b : Nat} (h : ¬ a < b) : dstop a b = b := by
  rw [dstop]; simp [h]

theorem inDesc_of_lt {m x : Nat} (h : m < x) : inDesc m x = inDesc m (prev x) := by
  rw [inDesc]; simp [h]

theorem inDesc_of_not_lt {m x : Nat} (h : ¬ m < x) : inDesc m x = (m == x) := by
  rw [inDesc]; simp [h]

theorem inDesc_self (x : Nat) : inDesc x x = true := by
  rw [inDesc_of_not_lt (by omega)]; simp

theorem dstop_double_even (a : Nat) :
    ∀ b, dstop (2 * a) (2 * b) = 2 * dstop a b := by
  intro b
  induction b using Nat.strong_induction_on with
  | _ b ih =>
    by_cases h : a < b
    · rw [dstop_of_lt (by omega), prev_two_mul, ih (prev b) (prev_lt (by omega)),
        dstop_of_lt h]
    · rw [dstop_of_not_lt (by omega), dstop_of_not_lt h]

theorem dstop_double_odd (a : Nat) :
    ∀ b, dstop (2 * a + 1) (2 * b) = 2 * dstop a b := by
  intro b
  induction b using Nat.strong_induction_on with
  | _ b ih =>
    by_cases h : a < b
    · rw [dstop_of_lt (by omega), prev_two_mul, ih (prev b) (prev_lt (by omega)),
        dstop_of_lt h]
    · rw [dstop_of_not_lt (by omega), dstop_of_not_lt h]

theorem inDesc_even (m : Nat) :
    ∀ a, inDesc (2 * m) (2 * a) = inDesc m a := by
  intro a
  induction a using Nat.strong_induction_on with
  | _ a ih =>
    by_cases h : m < a
    · rw [inDesc_of_lt (by omega), prev_two_mul, ih (prev a) (prev_lt (by omega)),
        inDesc_of_lt h]
    · rw [inDesc_of_not_lt (by omega), inDesc_of_not_lt h]
      by_cases he : m = a
      · subst he; simp
      · rw [beq_eq_false_iff_ne.mpr (by omega), beq_eq_false_iff_ne.mpr he]

theorem inDesc_even_odd (m a : Nat) : inDesc (2 * m) (2 * a + 1) = inDesc m a := by
  by_cases h : m ≤ a
  · rw [inDesc_of_lt (by omega), prev_odd, inDesc_even]
  · rw [inDesc_of_not_lt (by omega), inDesc_of_not_lt (by omega),
      beq_eq_false_iff_ne.mpr (by omega), beq_eq_false_iff_ne.mpr (by omega)]

theorem dstop_mem : ∀ b a : Nat, a ≤ b → inDesc (dstop a b) a = true := by
  intro b
  induction b using Nat.strong_induction_on with
  | _ b ih =>
    intro a hab
    by_cases hb0 : b = 0
    · subst hb0
      have ha0 : a = 0 := by omega
      subst ha0
      rw [dstop_of_not_lt (by omega), inDesc_self]
    · by_cases heq : a = b
      · subst heq
        rw [dstop_of_not_lt (by omega), inDesc_self]
      · rcases Nat.even_or_odd b with ⟨B, hB⟩ | ⟨B, hB⟩
        · rw [show B + B = 2 * B by ring] at hB
          subst hB
          rcases Nat.even_or_odd a with ⟨A, hA⟩ | ⟨A, hA⟩
          · rw [show A + A = 2 * A by ring] at hA
            subst hA
            rw [dstop_double_even, inDesc_even]
            exact ih B (by omega) A (by omega)
          · subst hA
            rw [dstop_double_odd, inDesc_even_odd]
            exact ih B (by omega) A (by omega)
        · subst hB
          have hlt : a < 2 * B + 1 := by omega
          rw [dstop_of_lt hlt, prev_odd]
          rcases Nat.even_or_odd a with ⟨A, hA⟩ | ⟨A, hA⟩
          · rw [show A + A = 2 * A by ring] at hA
            subst hA
            rw [dstop_double_even, inDesc_even]
            exact ih B (by omega) A (by omega)
          · subst hA
            rw [dstop_double_odd, inDesc_even_odd]
            exact ih B (by omega) A (by omega)

theorem inDesc_dstop_eq (m : Nat) : ∀ a, inDesc m a = true → dstop m a = m := by
  intro a
  induction a using Nat.strong_induction_on with
  | _ a ih =>
    intro hm
    by_cases h : m < a
    · rw [inDesc_of_lt h] at hm
      rw [dstop_of_lt h]
      exact ih (prev a) (prev_lt (by omega)) hm
    · rw [inDesc_of_not_lt h, beq_iff_eq] at hm
      rw [dstop_of_not_lt h, hm]

theorem dstop_dstop {a b : Nat} (h : a ≤ b) : dstop (dstop a b) a = dstop a b :=
  inDesc_dstop_eq (dstop a b) a (dstop_mem b a h)

theorem descSum_zero {I : Type} [Zero I] [Add I] (t : List I) : descSum t 0 = 0 := by
  rw [descSum]; simp

theorem descSum_pos {I : Type} [Zero I] [Add I] (t : List I) {x : Nat} (h : 0 < x) :
    descSum t x = t.getD (x - 1) 0 + descSum t (prev x) := by
  rw [descSum]; simp [h]

theorem sumLoop2_eq {I : Type} [AddCommGroup I] (t : List I) :
    ∀ i j s, sumLoop2 t j i s = s - (descSum t i - descSum t (dstop j i)) := by
  intro i
  induction i using Nat.strong_induction_on with
  | _ i ih =>
    intro j s
    by_cases h : j < i
    · rw [sumLoop2, dif_pos h, ih (prev i) (prev_lt (by omega)),
        dstop_of_lt h, descSum_pos t (show 0 < i by omega)]
      abel
    · rw [sumLoop2, dif_neg h, dstop_of_not_lt h]
      abel

theorem sumLoop1_eq {I : Type} [AddCommGroup I] (t : List I) :
    ∀ j i s, sumLoop1 t i j s =
      sumLoop2 t (dstop i j) i (s + (descSum t j - descSum t (dstop i j))) := by
  intro j
  induction j using Nat.strong_induction_on with
  | _ j ih =>
    intro i s
    by_cases h : i < j
    · rw [sumLoop1, dif_pos h, ih (prev j) (prev_lt (by omega)),
        dstop_of_lt h, descSum_pos t (show 0 < j by omega)]
      congr 1
      abel
    · rw [sumLoop1, dif_neg h, dstop_of_not_lt h]
      congr 1
      abel

theorem sum_eq_sub {I : Type} [AddCommGroup I] (t : List I) (a b : Nat) (h : a ≤ b) :
    sumLoop1 t a b 0 = descSum t b - descSum t a := by
  rw [sumLoop1_eq, sumLoop2_eq, dstop_dstop h]
  abel

/-- The core range sum is the difference of two full descent sums — for every
buffer, whenever the queried range is increasing. -/
theorem FenwickTree.sum_eq {I : Type} [AddCommGroup I] (T : FenwickTree I)
    (a b : Nat) (h : a ≤ b) :
    T.sum a b = descSum T.tree b - descSum T.tree a :=
  sum_eq_sub T.tree a b h

theorem addLoop_length {I : Type} [Add I] (t : List I) (delta : I) (i : Nat) :
    (addLoop t delta i).length = t.length := by
  induction t, delta, i using addLoop.induct with
  | case1 t delta i h ih => rw [addLoop, dif_pos h]; simpa using ih
  | case2 t delta i h => rw [addLoop, dif_neg h]

theorem FenwickTree.add_size {I : Type} [Add I] (T : FenwickTree I) (i : Nat) (delta : I) :
    (T.add i delta).size = T.size :=
  addLoop_length T.tree delta i

theorem addLoop_getD {I : Type} [AddCommGroup I] (t : List I) (delta : I) (idx : Nat) :
    ∀ d, d < t.length →
      (addLoop t delta idx).getD d 0 =
        t.getD d 0 + (if reaches idx d then delta else 0) := by
  induction t, delta, idx using addLoop.induct with
  | case1 t delta i h ih =>
    intro d hd
    rw [addLoop, dif_pos h]
    rw [ih d (by simpa using hd)]
    rcases Nat.lt_trichotomy d i with hdi | hdi | hdi
    · rw [List.getD_eq_getElem?_getD, List.getElem?_set_ne (by omega),
        ← List.getD_eq_getElem?_getD,
        reaches_of_not_lt (show ¬ i < d by omega), beq_eq_false_iff_ne.mpr (by omega),
        reaches_of_not_lt (show ¬ next i < d by have := next_gt i; omega),
        beq_eq_false_iff_ne.mpr (by have := next_gt i; omega)]
    · subst hdi
      rw [List.getD_eq_getElem?_getD, List.getElem?_set_self h, Option.getD_some,
        reaches_of_not_lt (show ¬ next d < d by have := next_gt d; omega),
        beq_eq_false_iff_ne.mpr (by have := next_gt d; omega), reaches_self,
        List.getD_eq_getElem?_getD, List.getElem?_eq_getElem h, Option.getD_some,
        List.get_eq_getElem]
      simp
    · rw [List.getD_eq_getElem?_getD, List.getElem?_set_ne (by omega),
        ← List.getD_eq_getElem?_getD, reaches_of_lt hdi]
  | case2 t delta i h =>
    intro d hd
    rw [addLoop, dif_neg h,
      reaches_of_not_lt (show ¬ i < d by omega),
      beq_eq_false_iff_ne.mpr (show i ≠ d by omega)]
    simp

theorem descSum_addLoop {I : Type} [AddCommGroup I] (t : List I) (delta : I) (idx : Nat)
    (hidx : idx < t.length) :
    ∀ x, x ≤ t.length →
      descSum (addLoop t delta idx) x = descSum t x + (if idx < x then delta else 0) := by
  intro x
  induction x using Nat.strong_induction_on with
  | _ x ih =>
    intro hx
    rcases Nat.eq_zero_or_pos x with h0 | h0
    · subst h0
      rw [descSum_zero, descSum_zero]
      simp
    · have hpl := prev_lt h0
      rw [descSum_pos _ h0, descSum_pos t h0,
        addLoop_getD t delta idx (x - 1) (by omega),
        ih (prev x) hpl (by omega)]
      have hiff := reaches_iff (x - 1) idx
      rw [show x - 1 + 1 = x by omega] at hiff
      have hr : (if reaches idx (x - 1) then delta else 0) =
          (if prev x ≤ idx ∧ idx ≤ x - 1 then delta else 0) := by
        by_cases hc : prev x ≤ idx ∧ idx ≤ x - 1
        · rw [if_pos hc, if_pos (hiff.mpr hc)]
        · rw [if_neg hc, if_neg (fun hb => hc (hiff.mp hb))]
      rw [hr]
      by_cases h2 : idx < prev x
      · rw [if_pos h2, if_neg (by omega), if_pos (by omega)]
        abel
      · by_cases h4 : prev x ≤ idx ∧ idx ≤ x - 1
        · rw [if_pos h4, if_neg h2, if_pos (by omega)]
          abel
        · rw [if_neg h4, if_neg h2, if_neg (by omega)]
          abel

/-- Effect of the core `add` on the core `sum` over an increasing in-bounds
range, for an arbitrary buffer: the sum moves by `delta` exactly when the
updated index lies in the queried range. -/
theorem FenwickTree.sum_add {I : Type} [AddCommGroup I] (T : FenwickTree I)
    (idx : Nat) (delta : I) (hidx : idx < T.size) (a b : Nat) (hab : a ≤ b)
    (hb : b ≤ T.size) :
    (T.add idx delta).sum a b =
      T.sum a b + (if idx < b then delta else 0) - (if idx < a then delta else 0) := by
  have hlen : T.tree.length = T.size := rfl
  rw [FenwickTree.sum_eq _ a b hab, FenwickTree.sum_eq T a b hab]
  show descSum (addLoop T.tree delta idx) b - descSum (addLoop T.tree delta idx) a = _
  rw [descSum_addLoop T.tree delta idx (by omega) b (by omega),
    descSum_addLoop T.tree delta idx (by omega) a (by omega)]
  abel

theorem of_size_size {I : Type} [Zero I] (n : Nat) : (FenwickTree.of_size I n).size = n := by
  simp [FenwickTree.of_size, FenwickTree.size]

theorem descSum_of_size {I : Type} [AddCommGroup I] (n : Nat) :
    ∀ x, descSum (FenwickTree.of_size I n).tree x = 0 := by
  intro x
  induction x using Nat.strong_induction_on with
  | _ x ih =>
    rcases Nat.eq_zero_or_pos x with h0 | h0
    · subst h0; exact descSum_zero _
    · rw [descSum_pos _ h0, ih (prev x) (prev_lt h0)]
      have hc : (FenwickTree.of_size I n).tree.getD (x - 1) 0 = 0 := by
        show (List.replicate n (0 : I)).getD (x - 1) 0 = 0
        rw [List.getD_eq_getElem?_getD, List.getElem?_replicate]
        split <;> simp
      rw [hc]
      simp

theorem addAll_size {I : Type} [Add I] (T : FenwickTree I) (v : Nat → I) :
    ∀ k, (addAll T v k).size = T.size := by
  intro k
  induction k with
  | zero => rfl
  | succ k ih => rw [addAll, FenwickTree.add_size, ih]

theorem buildT_size {I : Type} [Zero I] [Add I] (n : Nat) (v : Nat → I) :
    (buildT n v).size = n := by
  rw [buildT, addAll_size, of_size_size]

theorem descSum_addAll {I : Type} [AddCommGroup I] (n : Nat) (v : Nat → I) :
    ∀ k, k ≤ n → ∀ x, x ≤ n →
      descSum (addAll (FenwickTree.of_size I n) v k).tree x = pref v (min k x) := by
  intro k
  induction k with
  | zero =>
    intro _ x _
    rw [addAll, descSum_of_size]
    rw [Nat.min_eq_left (by omega)]
    rfl
  | succ k ih =>
    intro hk x hx
    have hsize : (addAll (FenwickTree.of_size I n) v k).tree.length = n := by
      have h1 := addAll_size (FenwickTree.of_size I n) v k
      simpa [FenwickTree.size, FenwickTree.of_size] using h1
    rw [addAll]
    show descSum (addLoop (addAll (FenwickTree.of_size I n) v k).tree (v k) k) x = _
    rw [descSum_addLoop _ (v k) k (by omega) x (by omega), ih (by omega) x hx]
    by_cases h : k < x
    · rw [if_pos h, Nat.min_eq_left (by omega), Nat.min_eq_left (by omega)]
      rfl
    · rw [if_neg h, Nat.min_eq_right (by omega), Nat.min_eq_right (by omega)]
      simp

/-- Round-trip: a tree built by `add(i, v i)` for each `i` below `n` answers
every increasing in-bounds range query with the true prefix-sum difference. -/
theorem buildT_sum {I : Type} [AddCommGroup I] (n : Nat) (v : Nat → I) (a b : Nat)
    (hab : a ≤ b) (hb : b ≤ n) :
    (buildT n v).sum a b = pref v b - pref v a := by
  rw [FenwickTree.sum_eq _ a b hab]
  show descSum (addAll (FenwickTree.of_size I n) v n).tree b -
      descSum (addAll (FenwickTree.of_size I n) v n).tree a = _
  rw [descSum_addAll n v n le_rfl b hb, descSum_addAll n v n le_rfl a (by omega),
    Nat.min_eq_right hb, Nat.min_eq_right (by omega)]

theorem sumLoop2Opt_eq {I : Type} [Zero I] [Sub I] (t : List I) (j : Nat) :
    ∀ i s, i ≤ t.length → sumLoop2Opt t j i s = some (sumLoop2 t j i s) := by
  intro i
  induction i using Nat.strong_induction_on with
  | _ i ih =>
    intro s hi
    by_cases h : j < i
    · rw [sumLoop2Opt, dif_pos h, sumLoop2, dif_pos h]
      have hacc : t[i - 1]? = some (t.getD (i - 1) 0) := by
        rw [List.getElem?_eq_getElem (by omega)]
        rw [List.getD_eq_getElem?_getD, List.getElem?_eq_getElem (by omega),
          Option.getD_some]
      rw [hacc]
      exact ih (prev i) (prev_lt (by omega)) _ (by have := prev_lt (show 0 < i by omega); omega)
    · rw [sumLoop2Opt, dif_neg h, sumLoop2, dif_neg h]

theorem sumLoop1Opt_eq {I : Type} [Zero I] [Add I] [Sub I] (t : List I) (i : Nat)
    (hi : i ≤ t.length) :
    ∀ j s, j ≤ t.length → sumLoop1Opt t i j s = some (sumLoop1 t i j s) := by
  intro j
  induction j using Nat.strong_induction_on with
  | _ j ih =>
    intro s hj
    by_cases h : i < j
    · rw [sumLoop1Opt, dif_pos h, sumLoop1, dif_pos h]
      have hacc : t[j - 1]? = some (t.getD (j - 1) 0) := by
        rw [List.getElem?_eq_getElem (by omega)]
        rw [List.getD_eq_getElem?_getD, List.getElem?_eq_getElem (by omega),
          Option.getD_some]
      rw [hacc]
      exact ih (prev j) (prev_lt (by omega)) _ (by have := prev_lt (show 0 < j by omega); omega)
    · rw [sumLoop1Opt, dif_neg h, sumLoop1, dif_neg h]
      exact sumLoop2Opt_eq t j i s hi

theorem sumChecked_invalid {I : Type} [AddCommGroup I] (T : FenwickTree I)
    (bounds : Bound × Bound)
    (h : T.size ≤ startIndex bounds.1 ∨ T.size < endIndex T.size bounds.2) :
    T.sumChecked bounds = .error (.outOfRange bounds T.size) := by
  simp only [FenwickTree.sumChecked]
  rw [if_pos h]

theorem sumChecked_empty {I : Type} [AddCommGroup I] (T : FenwickTree I) (a b : Nat)
    (ha : a < T.size) (hb : b ≤ T.size) (hba : b ≤ a) :
    T.sumChecked (.included a, .excluded b) = .ok 0 := by
  simp only [FenwickTree.sumChecked, startIndex, endIndex]
  rw [if_neg (by omega), if_pos (by omega)]

theorem sumChecked_ok {I : Type} [AddCommGroup I] (T : FenwickTree I) (a b : Nat)
    (ha : a < T.size) (hb : b ≤ T.size) (hab : a < b) :
    T.sumChecked (.included a, .excluded b) = .ok (T.sum a b) := by
  simp only [FenwickTree.sumChecked, startIndex, endIndex]
  rw [if_neg (by omega), if_neg (by omega)]

/-- C1: for every tree, every valid index (`index < length`) and every
delta, after `add(index, delta)` the sum over `index..index+1` increases by
exactly `delta`, and the sum over any valid range that does not contain
`index` is unchanged — both for the core half-open `sum` over increasing
in-bounds ranges and for the spec-modelled checked `sum` over arbitrary
in-bounds ranges (including empty and decreasing ones). -/
theorem c1_additivity {I : Type} [AddCommGroup I] (T : FenwickTree I) (index : Nat)
    (delta : I) (h : index < T.size) :
    ((T.add index delta).sum index (index + 1) = T.sum index (index + 1) + delta) ∧
    (∀ a b, a ≤ b → b ≤ T.size → b ≤ index ∨ index < a →
      (T.add index delta).sum a b = T.sum a b) ∧
    (∀ a b, a < T.size → b ≤ T.size → b ≤ index ∨ index < a →
      (T.add index delta).sumChecked (.included a, .excluded b) =
        T.sumChecked (.included a, .excluded b)) := by
  have hpoint : (T.add index delta).sum index (index + 1) =
      T.sum index (index + 1) + delta := by
    rw [FenwickTree.sum_add T index delta h index (index + 1) (by omega) (by omega),
      if_pos (by omega), if_neg (by omega)]
    abel
  have houtside : ∀ a b, a ≤ b → b ≤ T.size → b ≤ index ∨ index < a →
      (T.add index delta).sum a b = T.sum a b := by
    intro a b hab hb hout
    rw [FenwickTree.sum_add T index delta h a b hab hb]
    rcases hout with hout | hout
    · rw [if_neg (by omega), if_neg (by omega)]
      abel
    · rw [if_pos (by omega), if_pos (by omega)]
      abel
  refine ⟨hpoint, houtside, ?_⟩
  intro a b ha hb hout
  have hsize : (T.add index delta).size = T.size := FenwickTree.add_size T index delta
  by_cases hab : a < b
  · rw [sumChecked_ok _ a b (by omega) (by omega) hab, sumChecked_ok T a b ha hb hab,
      houtside a b (by omega) hb hout]
  · rw [sumChecked_empty _ a b (by omega) (by omega) (by omega),
      sumChecked_empty T a b ha hb (by omega)]

theorem c1_additivity_witness :
    (((⟨[1, 1, 1]⟩ : FenwickTree Int).add 1 5).sum 1 2 =
      (⟨[1, 1, 1]⟩ : FenwickTree Int).sum 1 2 + 5) ∧
    (((⟨[1, 1, 1]⟩ : FenwickTree Int).add 1 5).sum 0 1 =
      (⟨[1, 1, 1]⟩ : FenwickTree Int).sum 0 1) := by
  have h := c1_additivity (⟨[1, 1, 1]⟩ : FenwickTree Int) 1 5 (by decide)
  exact ⟨h.1, h.2.1 0 1 (by decide) (by decide) (Or.inl (by decide))⟩

/-- C2: for a tree of length 3 over integers, after `add(0,1)`, `add(1,2)`,
`add(2,3)`, the sums are exactly `sum(0..1)=1`, `sum(0..2)=3`, `sum(0..3)=6`,
`sum(1..2)=2`, `sum(1..3)=5`, `sum(2..3)=3`. -/
theorem c2_concrete_len3 :
    ((((FenwickTree.of_size Int 3).add 0 1).add 1 2).add 2 3).sum 0 1 = 1 ∧
    ((((FenwickTree.of_size Int 3).add 0 1).add 1 2).add 2 3).sum 0 2 = 3 ∧
    ((((FenwickTree.of_size Int 3).add 0 1).add 1 2).add 2 3).sum 0 3 = 6 ∧
    ((((FenwickTree.of_size Int 3).add 0 1).add 1 2).add 2 3).sum 1 2 = 2 ∧
    ((((FenwickTree.of_size Int 3).add 0 1).add 1 2).add 2 3).sum 1 3 = 5 ∧
    ((((FenwickTree.of_size Int 3).add 0 1).add 1 2).add 2 3).sum 2 3 = 3 := by
  have hb : (((FenwickTree.of_size Int 3).add 0 1).add 1 2).add 2 3 = buildT 3 v3 := rfl
  refine ⟨?_, ?_, ?_, ?_, ?_, ?_⟩ <;>
    rw [hb, buildT_sum 3 v3 _ _ (by omega) (by omega)] <;> decide

/-- C3: for every tree (whatever its cell contents) and all in-bounds
indices `a >= b`, the spec-modelled checked `sum(a..b)` succeeds with the
zero value of `I` — in particular for strictly decreasing ranges such as
`sum(2..0)`. -/
theorem c3_empty_decreasing {I : Type} [AddCommGroup I] (T : FenwickTree I) (a b : Nat)
    (ha : a < T.size) (hb : b ≤ T.size) (hba : b ≤ a) :
    T.sumChecked (.included a, .excluded b) = .ok 0 :=
  sumChecked_empty T a b ha hb hba

theorem c3_empty_decreasing_witness :
    (⟨[5, 7, 9]⟩ : FenwickTree Int).sumChecked (.included 2, .excluded 0) = .ok 0 :=
  c3_empty_decreasing (⟨[5, 7, 9]⟩ : FenwickTree Int) 2 0 (by decide) (by decide)
    (by decide)

/-- C4: for every tree and every `index >= length`, the spec-modelled
fallible `add` fails with `IndexOutOfRange` carrying `(index, length)` and
leaves the tree state unchanged. -/
theorem c4_add_out_of_range {I : Type} [Add I] (T : FenwickTree I) (index : Nat)
    (delta : I) (h : T.size ≤ index) :
    T.addChecked index delta = (.error (.indexOutOfRange index T.size), T) := by
  rw [FenwickTree.addChecked, if_pos h]

theorem c4_add_out_of_range_witness :
    (FenwickTree.of_size Int 3).addChecked 4 0 =
      (.error (.indexOutOfRange 4 3), FenwickTree.of_size Int 3) :=
  c4_add_out_of_range (FenwickTree.of_size Int 3) 4 0 (by decide)

/-- C5: for every tree and every bound pair whose normalized inclusive
start is `>= length` or whose normalized exclusive end is `> length`, the
spec-modelled checked `sum` fails with `OutOfRange` carrying the original
(pre-normalization) bound pair and the tree's length; the returned value
does not depend on the buffer contents, as validation precedes traversal. -/
theorem c5_sum_out_of_range {I : Type} [AddCommGroup I] (T : FenwickTree I)
    (bounds : Bound × Bound)
    (h : T.size ≤ startIndex bounds.1 ∨ T.size < endIndex T.size bounds.2) :
    T.sumChecked bounds = .error (.outOfRange bounds T.size) :=
  sumChecked_invalid T bounds h

theorem c5_sum_out_of_range_witness :
    (FenwickTree.of_size Int 3).sumChecked (.included 3, .excluded 4) =
      .error (.outOfRange (.included 3, .excluded 4) 3) :=
  c5_sum_out_of_range (FenwickTree.of_size Int 3) (.included 3, .excluded 4)
    (Or.inl (by decide))

/-- C6: for every tree (whatever its cell contents) and all indices
`0 <= a <= b <= c <= length`, `sum(a..c) = sum(a..b) + sum(b..c)`. -/
theorem c6_prefix_consistency {I : Type} [AddCommGroup I] (T : FenwickTree I)
    (a b c : Nat) (hab : a ≤ b) (hbc : b ≤ c) (hc : c ≤ T.size) :
    T.sum a c = T.sum a b + T.sum b c := by
  rw [FenwickTree.sum_eq T a c (by omega), FenwickTree.sum_eq T a b hab,
    FenwickTree.sum_eq T b c hbc]
  abel

theorem c6_prefix_consistency_witness :
    (⟨[2, 3, 4]⟩ : FenwickTree Int).sum 0 3 =
      (⟨[2, 3, 4]⟩ : FenwickTree Int).sum 0 2 + (⟨[2, 3, 4]⟩ : FenwickTree Int).sum 2 3 :=
  c6_prefix_consistency (⟨[2, 3, 4]⟩ : FenwickTree Int) 0 2 3 (by decide) (by decide)
    (by decide)

/-- C7: building a tree of length `n` and calling `add(i, v i)` once for
each `i` in `0..n` makes `sum(0..n)` the sum of all the values, for every
length and every value sequence over any additive group; in particular for
`n = 100` with value `i` at index `i - 1`, `sum(0..100) = 5050`,
`sum(1..100) = 5049` and `sum(4..100) = 5040`. -/
theorem c7_round_trip (I : Type) [AddCommGroup I] :
    (∀ (n : Nat) (v : Nat → I), (buildT n v).sum 0 n = pref v n) ∧
    ((buildT 100 (fun i => (i : Int) + 1)).sum 0 100 = 5050 ∧
     (buildT 100 (fun i => (i : Int) + 1)).sum 1 100 = 5049 ∧
     (buildT 100 (fun i => (i : Int) + 1)).sum 4 100 = 5040) := by
  constructor
  · intro n v
    rw [buildT_sum n v 0 n (by omega) le_rfl,
      show pref v 0 = (0 : I) from rfl, sub_zero]
  · refine ⟨?_, ?_, ?_⟩ <;>
      rw [buildT_sum 100 (fun i => (i : Int) + 1) _ _ (by omega) (by omega)] <;> decide

theorem c7_round_trip_witness :
    (buildT 5 (fun i => (i : Int) * 2)).sum 0 5 = pref (fun i => (i : Int) * 2) 5 :=
  (c7_round_trip Int).1 5 (fun i => (i : Int) * 2)

/-- C8 fails as stated on the empty tree: with the spec's validation rule
(`start >= length` rejects) and error payload (the original bound pair),
the fully unbounded query and `sum(0..length())` both fail on a length-0
tree but with different `OutOfRange` payloads, so the two results differ. -/
theorem c8_normalization_counterexample :
    (FenwickTree.of_size Int 0).sumChecked (Bound.unbounded, Bound.unbounded) ≠
      (FenwickTree.of_size Int 0).sumChecked (Bound.included 0, Bound.excluded 0) := by
  decide

/-- C8 (amended): the spec-modelled checked `sum` accepts a bound pair with
each side independently inclusive, exclusive or unbounded, normalizing an
unbounded start to inclusive `0`, an unbounded end to exclusive `length`,
an inclusive index to itself on the start side and to `index + 1` on the
end side, and an exclusive index dually; consequently, on every tree of
positive length the fully unbounded query returns the same result as
`sum(0..length())` (on the empty tree both fail, with payloads differing
only in the recorded original bounds). -/
theorem c8_bound_normalization {I : Type} [AddCommGroup I] :
    startIndex Bound.unbounded = 0 ∧
    (∀ s, startIndex (Bound.included s) = s) ∧
    (∀ s, startIndex (Bound.excluded s) = s + 1) ∧
    (∀ len, endIndex len Bound.unbounded = len) ∧
    (∀ len e, endIndex len (Bound.included e) = e + 1) ∧
    (∀ len e, endIndex len (Bound.excluded e) = e) ∧
    (∀ T : FenwickTree I, 0 < T.size →
      T.sumChecked (Bound.unbounded, Bound.unbounded) =
        T.sumChecked (Bound.included 0, Bound.excluded T.size)) := by
  refine ⟨rfl, fun _ => rfl, fun _ => rfl, fun _ => rfl, fun _ _ => rfl, fun _ _ => rfl, ?_⟩
  intro T h
  simp only [FenwickTree.sumChecked, startIndex, endIndex]
  rw [if_neg (by omega), if_neg (by omega), if_neg (by omega)]

theorem c8_bound_normalization_witness :
    (⟨[4]⟩ : FenwickTree Int).sumChecked (Bound.unbounded, Bound.unbounded) =
      (⟨[4]⟩ : FenwickTree Int).sumChecked (Bound.included 0, Bound.excluded 1) :=
  (c8_bound_normalization (I := Int)).2.2.2.2.2.2 (⟨[4]⟩ : FenwickTree Int) (by decide)

/-- C9: the ascend step `next(i) = i | (i + 1)` is strictly increasing and
the descend step `prev(i) = i & (i - 1)` is strictly decreasing on positive
inputs — the measures by which the `add` loop and both `sum` loops of the
embedding are (provably) terminating. -/
theorem c9_steps_terminate :
    (∀ i : Nat, i < next i) ∧ (∀ i : Nat, 0 < i → prev i < i) :=
  ⟨next_gt, fun _ h => prev_lt h⟩

theorem c9_steps_terminate_witness : 6 < next 6 ∧ prev 6 < 6 :=
  ⟨c9_steps_terminate.1 6, c9_steps_terminate.2 6 (by decide)⟩

/-- C10: for every tree and all cursor start values `start <= size` and
`end <= size`, evaluating `sum` never reads the buffer out of bounds: the
variant whose reads are bounds-checked (panics modelled as `none`) returns
`some` of the unchecked result. -/
theorem c10_sum_in_bounds {I : Type} [AddCommGroup I] (T : FenwickTree I)
    (a b : Nat) (ha : a ≤ T.size) (hb : b ≤ T.size) :
    T.sumOpt a b = some (T.sum a b) :=
  sumLoop1Opt_eq T.tree a ha b 0 hb

theorem c10_sum_in_bounds_witness :
    (⟨[3, 4, 5]⟩ : FenwickTree Int).sumOpt 1 3 =
      some ((⟨[3, 4, 5]⟩ : FenwickTree Int).sum 1 3) :=
  c10_sum_in_bounds (⟨[3, 4, 5]⟩ : FenwickTree Int) 1 3 (by decide) (by decide)
